import Mathlib

/-!
Shallow embedding of the indexed thread-safe store in
src/client-go/tools/cache/thread_safe_store.go (package cache).

Go maps from string keys are modelled either as association lists
(when the code iterates over them or measures their length) or as
functions String → Option _ (when the code only does point lookups
and point updates).  Go's nil interface value for stored objects is
modelled by Option Obj, so the primary table maps keys to Option Obj.
A Go panic is modelled by returning none from the operation, so a
state only exists for executions that did not abort.  sets.String is
modelled by a list of strings with membership-aware insert; the order
in which Go enumerates a set is unspecified, so enumeration returns
the underlying list.
-/

set_option maxHeartbeats 1000000
set_option linter.unusedVariables false

namespace Cache

/-- Go: type IndexFunc func(obj interface{}) ([]string, error). -/
def IndexFunc (Obj : Type) : Type := Obj → Except String (List String)

/-- Go: sets.String, as the list of its elements. -/
abbrev KeySet : Type := List String

/-- Go: sets.String.Insert. -/
def ksInsert (s : KeySet) (k : String) : KeySet :=
  if k ∈ s then s else k :: s

/-- Go: sets.String.Delete. -/
def ksDelete (s : KeySet) (k : String) : KeySet :=
  List.filter (fun x => decide (x ≠ k)) s

/-- Go: type Index map[string]sets.String (point-access view). -/
def Index : Type := String → Option KeySet

/-- Go: type Indices map[string]Index (point-access view). -/
def Indices : Type := String → Option Index

def emptyIndex : Index := fun _ => none

def emptyIndices : Indices := fun _ => none

/-- Association-list lookup, modelling Go map read m[k] (with ok flag). -/
def mapLookup {α : Type} : List (String × α) → String → Option α
  | [], _ => none
  | (k, v) :: rest, key => if k = key then some v else mapLookup rest key

/-- Go map write m[k] = v: overwrite the entry for key if present
(a map holds one entry per key), otherwise add a new entry. -/
def mapInsert {α : Type} : List (String × α) → String → α → List (String × α)
  | [], key, v => [(key, v)]
  | (k, w) :: rest, key, v =>
    if k = key then (key, v) :: rest else (k, w) :: mapInsert rest key v

/-- Go map delete(m, k). -/
def mapErase {α : Type} : List (String × α) → String → List (String × α)
  | [], _ => []
  | (k, v) :: rest, key =>
    if k = key then mapErase rest key else (k, v) :: mapErase rest key

/-- Go: the storeIndex struct: indexers maps a name to an IndexFunc,
indices maps a name to an Index. -/
structure StoreIndex (Obj : Type) where
  indexers : List (String × IndexFunc Obj)
  indices : Indices

/-- Go: the threadSafeMap struct (the lock is not modelled: every
operation is one critical section, so the embedding is the sequential
semantics of the lock-serialized executions). -/
structure StoreState (Obj : Type) where
  items : List (String × Option Obj)
  index : StoreIndex Obj

/-- The error taxonomy of the spec, carried in place of Go's
fmt.Errorf strings.  indexerConflict carries the names printed by
the "indexer conflict: %v" message. -/
inductive StoreErr where
  | indexNotFound (name : String)
  | indexerConflict (names : List String)
  | indexerRegistrationOnNonEmptyStore
  deriving DecidableEq, Repr

/-- Applying an index function through a possibly-nil object: in
updateIndices, a nil old/new object contributes the empty value list
(oldIndexValues[:0] / indexValues[:0]) and the index function is not
invoked. -/
def runIndexFunc {Obj : Type} (f : IndexFunc Obj) : Option Obj → Except String (List String)
  | none => Except.ok []
  | some x => f x

/-- Go: storeIndex.addKeyToIndex. -/
def addKeyToIndex (key indexValue : String) (index : Index) : Index :=
  fun v =>
    if v = indexValue then some (ksInsert ((index indexValue).getD []) key)
    else index v

/-- Go: storeIndex.deleteKeyFromIndex; deletes the bucket when the set
becomes empty. -/
def deleteKeyFromIndex (key indexValue : String) (index : Index) : Index :=
  match index indexValue with
  | none => index
  | some set =>
    if ksDelete set key = [] then fun v => if v = indexValue then none else index v
    else fun v => if v = indexValue then some (ksDelete set key) else index v

/-- The fast-path test in updateIndices:
len(indexValues) == 1 && len(oldIndexValues) == 1
&& indexValues[0] == oldIndexValues[0]. -/
def fastPath (oldIndexValues indexValues : List String) : Bool :=
  match indexValues, oldIndexValues with
  | [nv], [ov] => decide (nv = ov)
  | _, _ => false

/-- One iteration of the loop body of storeIndex.updateIndices for
index name, after the two value lists have been computed: fetch (and
create, if absent) the Index for name, skip on the fast path,
otherwise delete key from every old value's bucket and insert it into
every new value's bucket. -/
def updateSingleIndex (indices : Indices) (name : String)
    (oldIndexValues indexValues : List String) (key : String) : Indices :=
  let index := (indices name).getD emptyIndex
  let index' :=
    if fastPath oldIndexValues indexValues then index
    else
      indexValues.foldl (fun idx v => addKeyToIndex key v idx)
        (oldIndexValues.foldl (fun idx v => deleteKeyFromIndex key v idx) index)
  fun n => if n = name then some index' else indices n

/-- Go: storeIndex.updateIndices.  Iterates over the registered
indexers; an index-function error raises a panic, modelled as none. -/
def updateIndices {Obj : Type} (indexers : List (String × IndexFunc Obj))
    (indices : Indices) (oldObj newObj : Option Obj) (key : String) :
    Option Indices :=
  match indexers with
  | [] => some indices
  | (name, f) :: rest =>
    match runIndexFunc f oldObj with
    | Except.error _ => none
    | Except.ok oldIndexValues =>
      match runIndexFunc f newObj with
      | Except.error _ => none
      | Except.ok indexValues =>
        updateIndices rest
          (updateSingleIndex indices name oldIndexValues indexValues key)
          oldObj newObj key

/-- Go: storeIndex.getKeysByIndex: name must be registered, then the
bucket (possibly absent) is returned directly. -/
def getKeysByIndex {Obj : Type} (si : StoreIndex Obj) (indexName indexedValue : String) :
    Except StoreErr (Option KeySet) :=
  match mapLookup si.indexers indexName with
  | none => Except.error (StoreErr.indexNotFound indexName)
  | some _ => Except.ok (((si.indices indexName).getD emptyIndex) indexedValue)

/-- Go: storeIndex.addIndexers: collision check against the existing
registry, then merge.  Returns the post-state and the error slot. -/
def addIndexers {Obj : Type} (si : StoreIndex Obj)
    (newIndexers : List (String × IndexFunc Obj)) :
    StoreIndex Obj × Option StoreErr :=
  let conflicts :=
    (newIndexers.map Prod.fst).filter
      (fun n => decide (n ∈ si.indexers.map Prod.fst))
  if conflicts = [] then
    ({ indexers := newIndexers.foldl (fun m p => mapInsert m p.1 p.2) si.indexers,
       indices := si.indices }, none)
  else (si, some (StoreErr.indexerConflict conflicts))

/-- Go: storeIndex.reset. -/
def reset {Obj : Type} (si : StoreIndex Obj) : StoreIndex Obj :=
  { si with indices := emptyIndices }

/-- Go: threadSafeMap.Update: capture the old value (nil when absent),
store the new value, reconcile the indices. -/
def Update {Obj : Type} (s : StoreState Obj) (key : String) (obj : Option Obj) :
    Option (StoreState Obj) :=
  match updateIndices s.index.indexers s.index.indices
      ((mapLookup s.items key).join) obj key with
  | none => none
  | some ind =>
    some { items := mapInsert s.items key obj,
           index := { indexers := s.index.indexers, indices := ind } }

/-- Go: threadSafeMap.Add delegates to Update. -/
def Add {Obj : Type} (s : StoreState Obj) (key : String) (obj : Option Obj) :
    Option (StoreState Obj) :=
  Update s key obj

/-- Go: threadSafeMap.Delete: only if the key exists, reconcile with a
nil new object and remove the entry. -/
def Delete {Obj : Type} (s : StoreState Obj) (key : String) : Option (StoreState Obj) :=
  match mapLookup s.items key with
  | none => some s
  | some obj =>
    match updateIndices s.index.indexers s.index.indices obj none key with
    | none => none
    | some ind =>
      some { items := mapErase s.items key,
             index := { indexers := s.index.indexers, indices := ind } }

/-- Go: threadSafeMap.Get. -/
def Get {Obj : Type} (s : StoreState Obj) (key : String) : Option Obj × Bool :=
  match mapLookup s.items key with
  | some o => (o, true)
  | none => (none, false)

/-- Go: threadSafeMap.List (named ListObjects because List is taken). -/
def ListObjects {Obj : Type} (s : StoreState Obj) : List (Option Obj) :=
  s.items.map Prod.snd

/-- Go: threadSafeMap.ListKeys. -/
def ListKeys {Obj : Type} (s : StoreState Obj) : List String :=
  s.items.map Prod.fst

/-- The reindexing loop of threadSafeMap.Replace, after the reset:
for key, item := range c.items  updateIndices(nil, item, key). -/
def reindexAll {Obj : Type} (indexers : List (String × IndexFunc Obj))
    (entries : List (String × Option Obj)) (indices : Indices) : Option Indices :=
  match entries with
  | [] => some indices
  | (key, item) :: rest =>
    match updateIndices indexers indices none item key with
    | none => none
    | some ind => reindexAll indexers rest ind

/-- Go: threadSafeMap.Replace: swap the primary table, reset the index
set, reconcile every entry as freshly created.  The resourceVersion
argument is ignored by the code. -/
def Replace {Obj : Type} (s : StoreState Obj) (newItems : List (String × Option Obj))
    (resourceVersion : String) : Option (StoreState Obj) :=
  match reindexAll s.index.indexers newItems emptyIndices with
  | none => none
  | some ind =>
    some { items := newItems,
           index := { indexers := s.index.indexers, indices := ind } }

/-- Go: threadSafeMap.IndexKeys: getKeysByIndex, then set.List() (a nil
set yields the empty list). -/
def IndexKeys {Obj : Type} (s : StoreState Obj) (indexName indexedValue : String) :
    Except StoreErr (List String) :=
  match getKeysByIndex s.index indexName indexedValue with
  | Except.error e => Except.error e
  | Except.ok set => Except.ok (set.getD [])

/-- Go: threadSafeMap.AddIndexers: refuse on a non-empty table, else
delegate to the store index. -/
def AddIndexers {Obj : Type} (s : StoreState Obj)
    (newIndexers : List (String × IndexFunc Obj)) :
    StoreState Obj × Option StoreErr :=
  if s.items.length > 0 then
    (s, some StoreErr.indexerRegistrationOnNonEmptyStore)
  else
    let r := addIndexers s.index newIndexers
    ({ items := s.items, index := r.1 }, r.2)

/-- Go: NewThreadSafeStore; the spec constructs the store with empty
table and empty indices. -/
def NewThreadSafeStore {Obj : Type} (indexers : List (String × IndexFunc Obj)) :
    StoreState Obj :=
  { items := [], index := { indexers := indexers, indices := emptyIndices } }

/-- The mutating operations of the public contract, as a trace alphabet. -/
inductive Op (Obj : Type) where
  | add (key : String) (obj : Option Obj)
  | update (key : String) (obj : Option Obj)
  | delete (key : String)
  | replace (newItems : List (String × Option Obj)) (resourceVersion : String)
  | addIndexers (newIndexers : List (String × IndexFunc Obj))

/-- Well-formedness of an operation's argument: a Go map cannot carry
a duplicate key. -/
def Op.WF {Obj : Type} : Op Obj → Prop
  | .replace m _ => (m.map Prod.fst).Nodup
  | _ => True

/-- Ops drawn from add/update/delete. -/
def Op.isBasic {Obj : Type} : Op Obj → Prop
  | .add _ _ => True
  | .update _ _ => True
  | .delete _ => True
  | _ => False

/-- Ops drawn from add/update/delete/replace. -/
def Op.isDataOp {Obj : Type} : Op Obj → Prop
  | .addIndexers _ => False
  | _ => True

/-- Apply one operation; none models a panic aborting the process.
A failed AddIndexers returns its error to the caller and leaves the
state unchanged, so it is not an abort. -/
def applyOp {Obj : Type} (s : StoreState Obj) : Op Obj → Option (StoreState Obj)
  | .add key obj => Add s key obj
  | .update key obj => Update s key obj
  | .delete key => Delete s key
  | .replace m rv => Replace s m rv
  | .addIndexers new => some (AddIndexers s new).1

/-- Run a sequence of operations. -/
def runOps {Obj : Type} (s : StoreState Obj) : List (Op Obj) → Option (StoreState Obj)
  | [] => some s
  | op :: rest =>
    match applyOp s op with
    | none => none
    | some s' => runOps s' rest

/-- Membership of key k in the bucket for value v of index idx. -/
def idxMem (idx : Index) (v k : String) : Prop :=
  ∃ set, idx v = some set ∧ k ∈ set

/-- Membership of key k in the bucket for value v of the index named
name inside an Indices map. -/
def memB (indices : Indices) (name v k : String) : Prop :=
  ∃ idx, indices name = some idx ∧ idxMem idx v k

/-- No bucket of an Index is empty. -/
def IdxOk (idx : Index) : Prop :=
  ∀ v set, idx v = some set → set ≠ []

/-- No bucket of any Index in an Indices map is empty. -/
def IdcsOk (indices : Indices) : Prop :=
  ∀ name idx, indices name = some idx → IdxOk idx

/-- A concrete index function over string objects, used to evaluate
the development on concrete stores: it indexes a string by its first
character (the byFirstChar scenario of the spec). -/
def byFirstChar : IndexFunc String := fun s => Except.ok [s.take 1]

/-- A concrete registry holding byFirstChar. -/
def wIndexers : List (String × IndexFunc String) := [("byFirstChar", byFirstChar)]

/-- A concrete store with one item and one populated bucket. -/
def wStore : StoreState String :=
  { items := [("k1", some "apple")],
    index :=
      { indexers := wIndexers,
        indices := fun n =>
          if n = "byFirstChar" then
            some (fun v => if v = "a" then some ["k1"] else none)
          else none } }

/-! ### Association-list map lemmas -/

theorem mapLookup_insert_self {α : Type} (m : List (String × α)) (key : String) (v : α) :
    mapLookup (mapInsert m key v) key = some v := by
  induction m with
  | nil => simp [mapInsert, mapLookup]
  | cons p rest ih =>
    obtain ⟨k, w⟩ := p
    simp only [mapInsert]
    by_cases hk : k = key
    · rw [if_pos hk]
      simp [mapLookup]
    · rw [if_neg hk]
      simp only [mapLookup, if_neg hk]
      exact ih

theorem mapLookup_insert_ne {α : Type} (m : List (String × α)) (key key' : String) (v : α)
    (h : key' ≠ key) : mapLookup (mapInsert m key v) key' = mapLookup m key' := by
  induction m with
  | nil =>
    simp only [mapInsert, mapLookup]
    rw [if_neg (fun hh => h hh.symm)]
  | cons p rest ih =>
    obtain ⟨k, w⟩ := p
    simp only [mapInsert]
    by_cases hk : k = key
    · rw [if_pos hk]
      simp only [mapLookup]
      rw [if_neg (fun hh => h hh.symm), if_neg (by rw [hk]; exact fun hh => h hh.symm)]
    · rw [if_neg hk]
      simp only [mapLookup]
      by_cases hk' : k = key'
      · rw [if_pos hk', if_pos hk']
      · rw [if_neg hk', if_neg hk']
        exact ih

theorem mapLookup_append_of_none {α : Type} (m₁ m₂ : List (String × α)) (key : String)
    (h : mapLookup m₁ key = none) : mapLookup (m₁ ++ m₂) key = mapLookup m₂ key := by
  induction m₁ with
  | nil => simp
  | cons p rest ih =>
    obtain ⟨k, w⟩ := p
    simp only [mapLookup] at h ⊢
    by_cases hk : k = key
    · rw [if_pos hk] at h
      simp at h
    · rw [if_neg hk] at h
      simp only [List.cons_append, mapLookup, if_neg hk]
      exact ih h

theorem mapInsert_of_lookup_none {α : Type} (m : List (String × α)) (key : String) (v : α)
    (h : mapLookup m key = none) : mapInsert m key v = m ++ [(key, v)] := by
  induction m with
  | nil => simp [mapInsert]
  | cons p rest ih =>
    obtain ⟨k, w⟩ := p
    simp only [mapLookup] at h
    by_cases hk : k = key
    · rw [if_pos hk] at h
      simp at h
    · rw [if_neg hk] at h
      simp only [mapInsert, if_neg hk, List.cons_append]
      rw [ih h]

theorem mapLookup_erase_self {α : Type} (m : List (String × α)) (key : String) :
    mapLookup (mapErase m key) key = none := by
  induction m with
  | nil => simp [mapErase, mapLookup]
  | cons p rest ih =>
    obtain ⟨k, w⟩ := p
    simp only [mapErase]
    by_cases hk : k = key
    · rw [if_pos hk]; exact ih
    · rw [if_neg hk]
      simp only [mapLookup, if_neg hk]
      exact ih

theorem mapLookup_erase_ne {α : Type} (m : List (String × α)) (key key' : String)
    (h : key' ≠ key) : mapLookup (mapErase m key) key' = mapLookup m key' := by
  induction m with
  | nil => simp [mapErase]
  | cons p rest ih =>
    obtain ⟨k, w⟩ := p
    simp only [mapErase, mapLookup]
    by_cases hk : k = key
    · rw [if_pos hk]
      rw [if_neg (by rw [hk]; exact fun hh => h hh.symm)]
      exact ih
    · rw [if_neg hk]
      simp only [mapLookup]
      by_cases hk' : k = key'
      · rw [if_pos hk', if_pos hk']
      · rw [if_neg hk', if_neg hk']
        exact ih

theorem mapLookup_eq_none_iff {α : Type} (m : List (String × α)) (key : String) :
    mapLookup m key = none ↔ key ∉ m.map Prod.fst := by
  induction m with
  | nil => simp [mapLookup]
  | cons p rest ih =>
    obtain ⟨k, w⟩ := p
    simp only [mapLookup, List.map_cons, List.mem_cons]
    by_cases hk : k = key
    · rw [if_pos hk]
      simp [hk]
    · rw [if_neg hk]
      rw [ih]
      constructor
      · intro hn hc
        rcases hc with hc | hc
        · exact hk hc.symm
        · exact hn hc
      · intro hn
        intro hc
        exact hn (Or.inr hc)

/-! ### Key-set lemmas -/

theorem mem_ksInsert (s : KeySet) (k x : String) :
    x ∈ ksInsert s k ↔ x ∈ s ∨ x = k := by
  unfold ksInsert
  by_cases h : k ∈ s
  · rw [if_pos h]
    constructor
    · exact Or.inl
    · rintro (hx | rfl)
      · exact hx
      · exact h
  · rw [if_neg h]
    simp [List.mem_cons, or_comm]

theorem ksInsert_ne_nil (s : KeySet) (k : String) : ksInsert s k ≠ [] := by
  unfold ksInsert
  by_cases h : k ∈ s
  · rw [if_pos h]
    intro hc
    subst hc
    simp at h
  · rw [if_neg h]
    simp

theorem mem_ksDelete (s : KeySet) (k x : String) :
    x ∈ ksDelete s k ↔ x ∈ s ∧ x ≠ k := by
  unfold ksDelete
  simp [List.mem_filter]

/-! ### Bucket membership lemmas -/

theorem addKeyToIndex_apply_self (idx : Index) (key val : String) :
    addKeyToIndex key val idx val = some (ksInsert ((idx val).getD []) key) := by
  unfold addKeyToIndex
  rw [if_pos rfl]

theorem addKeyToIndex_apply_ne (idx : Index) (key val v : String) (h : v ≠ val) :
    addKeyToIndex key val idx v = idx v := by
  unfold addKeyToIndex
  rw [if_neg h]

theorem deleteKeyFromIndex_apply_ne (idx : Index) (key val v : String) (h : v ≠ val) :
    deleteKeyFromIndex key val idx v = idx v := by
  unfold deleteKeyFromIndex
  cases hval : idx val with
  | none => rfl
  | some set0 =>
    simp only []
    by_cases hdel : ksDelete set0 key = []
    · rw [if_pos hdel]
      exact if_neg h
    · rw [if_neg hdel]
      exact if_neg h

theorem deleteKeyFromIndex_apply_self (idx : Index) (key val : String) :
    deleteKeyFromIndex key val idx val =
      match idx val with
      | none => none
      | some set0 =>
        if ksDelete set0 key = [] then none else some (ksDelete set0 key) := by
  cases hval : idx val with
  | none => simp [deleteKeyFromIndex, hval]
  | some set0 =>
    by_cases hdel : ksDelete set0 key = []
    · simp [deleteKeyFromIndex, hval, hdel]
    · simp [deleteKeyFromIndex, hval, hdel]

theorem idxMem_addKeyToIndex (idx : Index) (key val v k : String) :
    idxMem (addKeyToIndex key val idx) v k ↔
      idxMem idx v k ∨ (v = val ∧ k = key) := by
  unfold idxMem
  by_cases hv : v = val
  · subst hv
    rw [addKeyToIndex_apply_self]
    constructor
    · rintro ⟨set, hset, hk⟩
      obtain rfl : ksInsert ((idx v).getD []) key = set := by injection hset
      rw [mem_ksInsert] at hk
      rcases hk with hk | rfl
      · cases hidx : idx v with
        | none => rw [hidx] at hk; simp at hk
        | some s0 =>
          rw [hidx] at hk
          exact Or.inl ⟨s0, rfl, by simpa using hk⟩
      · exact Or.inr ⟨rfl, rfl⟩
    · rintro (⟨set, hset, hk⟩ | ⟨-, rfl⟩)
      · refine ⟨_, rfl, ?_⟩
        rw [mem_ksInsert]
        rw [hset]
        exact Or.inl (by simpa using hk)
      · refine ⟨_, rfl, ?_⟩
        rw [mem_ksInsert]
        exact Or.inr rfl
  · rw [addKeyToIndex_apply_ne _ _ _ _ hv]
    constructor
    · rintro ⟨set, hset, hk⟩
      exact Or.inl ⟨set, hset, hk⟩
    · rintro (⟨set, hset, hk⟩ | ⟨hc, -⟩)
      · exact ⟨set, hset, hk⟩
      · exact absurd hc hv

theorem idxMem_deleteKeyFromIndex (idx : Index) (key val v k : String) :
    idxMem (deleteKeyFromIndex key val idx) v k ↔
      idxMem idx v k ∧ ¬(v = val ∧ k = key) := by
  unfold idxMem
  by_cases hv : v = val
  · subst hv
    rw [deleteKeyFromIndex_apply_self]
    cases hval : idx v with
    | none =>
      constructor
      · rintro ⟨set, hset, -⟩
        exact absurd hset (by simp)
      · rintro ⟨⟨set, hset, -⟩, -⟩
        exact absurd hset (by simp)
    | some set0 =>
      dsimp only
      by_cases hdel : ksDelete set0 key = []
      · rw [if_pos hdel]
        constructor
        · rintro ⟨set, hset, -⟩
          exact absurd hset (by simp)
        · rintro ⟨⟨set, hset, hk⟩, hne⟩
          obtain rfl : set0 = set := by injection hset
          exfalso
          by_cases hkk : k = key
          · exact hne ⟨rfl, hkk⟩
          · have hmem : k ∈ ksDelete set0 key := by
              rw [mem_ksDelete]
              exact ⟨hk, hkk⟩
            rw [hdel] at hmem
            simp at hmem
      · rw [if_neg hdel]
        constructor
        · rintro ⟨set, hset, hk⟩
          obtain rfl : ksDelete set0 key = set := by injection hset
          rw [mem_ksDelete] at hk
          refine ⟨⟨set0, rfl, hk.1⟩, ?_⟩
          rintro ⟨-, rfl⟩
          exact hk.2 rfl
        · rintro ⟨⟨set, hset, hk⟩, hne⟩
          obtain rfl : set0 = set := by injection hset
          refine ⟨_, rfl, ?_⟩
          rw [mem_ksDelete]
          refine ⟨hk, ?_⟩
          intro hkk
          exact hne ⟨rfl, hkk⟩
  · rw [deleteKeyFromIndex_apply_ne _ _ _ _ hv]
    constructor
    · rintro ⟨set, hset, hk⟩
      exact ⟨⟨set, hset, hk⟩, fun hc => hv hc.1⟩
    · rintro ⟨hm, -⟩
      exact hm

theorem idxMem_deleteFold (vals : List String) (idx : Index) (key v k : String) :
    idxMem (vals.foldl (fun i x => deleteKeyFromIndex key x i) idx) v k ↔
      idxMem idx v k ∧ ¬(v ∈ vals ∧ k = key) := by
  induction vals generalizing idx with
  | nil => simp
  | cons val rest ih =>
    simp only [List.foldl_cons]
    rw [ih, idxMem_deleteKeyFromIndex]
    constructor
    · rintro ⟨⟨hm, h1⟩, h2⟩
      refine ⟨hm, ?_⟩
      rintro ⟨hv, rfl⟩
      rcases List.mem_cons.mp hv with rfl | hv'
      · exact h1 ⟨rfl, rfl⟩
      · exact h2 ⟨hv', rfl⟩
    · rintro ⟨hm, hne⟩
      refine ⟨⟨hm, ?_⟩, ?_⟩
      · rintro ⟨rfl, rfl⟩
        exact hne ⟨List.mem_cons_self _ _, rfl⟩
      · rintro ⟨hv, rfl⟩
        exact hne ⟨List.mem_cons_of_mem _ hv, rfl⟩

theorem idxMem_addFold (vals : List String) (idx : Index) (key v k : String) :
    idxMem (vals.foldl (fun i x => addKeyToIndex key x i) idx) v k ↔
      idxMem idx v k ∨ (v ∈ vals ∧ k = key) := by
  induction vals generalizing idx with
  | nil => simp
  | cons val rest ih =>
    simp only [List.foldl_cons]
    rw [ih, idxMem_addKeyToIndex]
    constructor
    · rintro ((hm | ⟨rfl, rfl⟩) | ⟨hv, rfl⟩)
      · exact Or.inl hm
      · exact Or.inr ⟨List.mem_cons_self _ _, rfl⟩
      · exact Or.inr ⟨List.mem_cons_of_mem _ hv, rfl⟩
    · rintro (hm | ⟨hv, rfl⟩)
      · exact Or.inl (Or.inl hm)
      · rcases List.mem_cons.mp hv with rfl | hv'
        · exact Or.inl (Or.inr ⟨rfl, rfl⟩)
        · exact Or.inr ⟨hv', rfl⟩

theorem IdxOk_addKeyToIndex (idx : Index) (key val : String) (h : IdxOk idx) :
    IdxOk (addKeyToIndex key val idx) := by
  intro v set hset
  unfold addKeyToIndex at hset
  by_cases hv : v = val
  · rw [if_pos hv] at hset
    obtain rfl : ksInsert ((idx val).getD []) key = set := by injection hset
    exact ksInsert_ne_nil _ _
  · rw [if_neg hv] at hset
    exact h v set hset

theorem IdxOk_deleteKeyFromIndex (idx : Index) (key val : String) (h : IdxOk idx) :
    IdxOk (deleteKeyFromIndex key val idx) := by
  intro v set hset
  unfold deleteKeyFromIndex at hset
  cases hval : idx val with
  | none =>
    rw [hval] at hset
    exact h v set hset
  | some set0 =>
    rw [hval] at hset
    simp only [] at hset
    by_cases hdel : ksDelete set0 key = []
    · rw [if_pos hdel] at hset
      by_cases hv : v = val
      · rw [if_pos hv] at hset
        simp at hset
      · rw [if_neg hv] at hset
        exact h v set hset
    · rw [if_neg hdel] at hset
      by_cases hv : v = val
      · rw [if_pos hv] at hset
        obtain rfl : ksDelete set0 key = set := by injection hset
        exact hdel
      · rw [if_neg hv] at hset
        exact h v set hset

theorem IdxOk_deleteFold (vals : List String) (idx : Index) (key : String) (h : IdxOk idx) :
    IdxOk (vals.foldl (fun i x => deleteKeyFromIndex key x i) idx) := by
  induction vals generalizing idx with
  | nil => exact h
  | cons val rest ih =>
    simp only [List.foldl_cons]
    exact ih _ (IdxOk_deleteKeyFromIndex _ _ _ h)

theorem IdxOk_addFold (vals : List String) (idx : Index) (key : String) (h : IdxOk idx) :
    IdxOk (vals.foldl (fun i x => addKeyToIndex key x i) idx) := by
  induction vals generalizing idx with
  | nil => exact h
  | cons val rest ih =>
    simp only [List.foldl_cons]
    exact ih _ (IdxOk_addKeyToIndex _ _ _ h)

/-! ### Lookup versus membership in registries -/

theorem mapLookup_eq_some_imp_mem {α : Type} (m : List (String × α)) (k : String) (v : α)
    (h : mapLookup m k = some v) : (k, v) ∈ m := by
  induction m with
  | nil => simp [mapLookup] at h
  | cons p rest ih =>
    obtain ⟨k0, v0⟩ := p
    simp only [mapLookup] at h
    by_cases hk : k0 = k
    · rw [if_pos hk] at h
      obtain rfl : v0 = v := by injection h
      subst hk
      exact List.mem_cons_self _ _
    · rw [if_neg hk] at h
      exact List.mem_cons_of_mem _ (ih h)

theorem mem_imp_mapLookup {α : Type} (m : List (String × α)) (k : String) (v : α)
    (hnodup : (m.map Prod.fst).Nodup) (h : (k, v) ∈ m) : mapLookup m k = some v := by
  induction m with
  | nil => simp at h
  | cons p rest ih =>
    obtain ⟨k0, v0⟩ := p
    simp only [List.map_cons, List.nodup_cons] at hnodup
    rcases List.mem_cons.mp h with heq | hmem
    · obtain ⟨rfl, rfl⟩ : k0 = k ∧ v0 = v := by
        constructor
        · exact congrArg Prod.fst heq.symm
        · exact congrArg Prod.snd heq.symm
      simp [mapLookup]
    · simp only [mapLookup]
      by_cases hk : k0 = k
      · exfalso
        apply hnodup.1
        rw [hk]
        exact List.mem_map.mpr ⟨(k, v), hmem, rfl⟩
      · rw [if_neg hk]
        exact ih hnodup.2 hmem

/-! ### updateSingleIndex lemmas -/

theorem fastPath_iff (oldVals newVals : List String) :
    fastPath oldVals newVals = true ↔ ∃ x, oldVals = [x] ∧ newVals = [x] := by
  unfold fastPath
  match newVals, oldVals with
  | [nv], [ov] =>
    simp only [decide_eq_true_eq, List.cons.injEq, and_true]
    constructor
    · rintro rfl
      exact ⟨nv, rfl, rfl⟩
    · rintro ⟨x, rfl, h⟩
      exact h
  | [], ov =>
    constructor
    · intro hc
      exact absurd hc (by simp)
    · rintro ⟨x, hx, hy⟩
      simp at hy
  | nv1 :: nv2 :: nvs, ov =>
    constructor
    · intro hc
      exact absurd hc (by simp)
    · rintro ⟨x, hx, hy⟩
      simp at hy
  | [nv], [] =>
    constructor
    · intro hc
      exact absurd hc (by simp)
    · rintro ⟨x, hx, hy⟩
      simp at hx
  | [nv], ov1 :: ov2 :: ovs =>
    constructor
    · intro hc
      exact absurd hc (by simp)
    · rintro ⟨x, hx, hy⟩
      simp at hx

theorem updateSingleIndex_apply_ne (indices : Indices) (name : String)
    (oldVals newVals : List String) (key n : String) (h : n ≠ name) :
    updateSingleIndex indices name oldVals newVals key n = indices n := by
  simp only [updateSingleIndex]
  rw [if_neg h]

theorem updateSingleIndex_apply_self (indices : Indices) (name : String)
    (oldVals newVals : List String) (key : String) :
    updateSingleIndex indices name oldVals newVals key name =
      some (if fastPath oldVals newVals then (indices name).getD emptyIndex
            else newVals.foldl (fun idx v => addKeyToIndex key v idx)
              (oldVals.foldl (fun idx v => deleteKeyFromIndex key v idx)
                ((indices name).getD emptyIndex))) := by
  simp [updateSingleIndex]

theorem memB_getD (indices : Indices) (name v k : String) :
    memB indices name v k ↔ idxMem ((indices name).getD emptyIndex) v k := by
  unfold memB
  cases h : indices name with
  | none =>
    simp only [Option.getD_none]
    constructor
    · rintro ⟨idx, hidx, -⟩
      exact absurd hidx (by simp)
    · rintro ⟨set, hset, -⟩
      exact absurd hset (by simp [emptyIndex])
  | some idx =>
    simp only [Option.getD_some]
    constructor
    · rintro ⟨idx', hidx, hm⟩
      obtain rfl : idx = idx' := by injection hidx
      exact hm
    · intro hm
      exact ⟨idx, rfl, hm⟩

theorem memB_updateSingleIndex_other_name (indices : Indices) (name : String)
    (oldVals newVals : List String) (key n v k : String) (h : n ≠ name) :
    memB (updateSingleIndex indices name oldVals newVals key) n v k ↔
      memB indices n v k := by
  unfold memB
  rw [updateSingleIndex_apply_ne _ _ _ _ _ _ h]

theorem memB_updateSingleIndex_other_key (indices : Indices) (name : String)
    (oldVals newVals : List String) (key v k : String) (h : k ≠ key) :
    memB (updateSingleIndex indices name oldVals newVals key) name v k ↔
      memB indices name v k := by
  rw [memB_getD indices]
  unfold memB
  rw [updateSingleIndex_apply_self]
  constructor
  · rintro ⟨idx, hidx, hm⟩
    obtain rfl := (Option.some_inj.mp hidx).symm
    by_cases hfp : fastPath oldVals newVals
    · rw [if_pos hfp] at hm
      exact hm
    · rw [if_neg hfp] at hm
      rw [idxMem_addFold] at hm
      rcases hm with hm | ⟨-, hc⟩
      · rw [idxMem_deleteFold] at hm
        exact hm.1
      · exact absurd hc h
  · intro hm
    refine ⟨_, rfl, ?_⟩
    by_cases hfp : fastPath oldVals newVals
    · rw [if_pos hfp]
      exact hm
    · rw [if_neg hfp]
      rw [idxMem_addFold]
      left
      rw [idxMem_deleteFold]
      exact ⟨hm, fun hc => h hc.2⟩

theorem memB_updateSingleIndex_self_key (indices : Indices) (name : String)
    (oldVals newVals : List String) (key v : String)
    (hOld : ∀ v', memB indices name v' key ↔ v' ∈ oldVals) :
    memB (updateSingleIndex indices name oldVals newVals key) name v key ↔
      v ∈ newVals := by
  have hOld' : ∀ v', idxMem ((indices name).getD emptyIndex) v' key ↔ v' ∈ oldVals := by
    intro v'
    rw [← memB_getD]
    exact hOld v'
  unfold memB
  rw [updateSingleIndex_apply_self]
  constructor
  · rintro ⟨idx, hidx, hm⟩
    obtain rfl := (Option.some_inj.mp hidx).symm
    by_cases hfp : fastPath oldVals newVals
    · rw [if_pos hfp] at hm
      obtain ⟨x, hov, hnv⟩ := (fastPath_iff _ _).mp hfp
      rw [hOld'] at hm
      rw [hov] at hm
      rw [hnv]
      exact hm
    · rw [if_neg hfp] at hm
      rw [idxMem_addFold] at hm
      rcases hm with hm | ⟨hv, -⟩
      · rw [idxMem_deleteFold] at hm
        obtain ⟨hm1, hm2⟩ := hm
        rw [hOld'] at hm1
        exact absurd ⟨hm1, rfl⟩ hm2
      · exact hv
  · intro hv
    refine ⟨_, rfl, ?_⟩
    by_cases hfp : fastPath oldVals newVals
    · rw [if_pos hfp]
      obtain ⟨x, hov, hnv⟩ := (fastPath_iff _ _).mp hfp
      rw [hOld', hov]
      rw [hnv] at hv
      exact hv
    · rw [if_neg hfp]
      rw [idxMem_addFold]
      exact Or.inr ⟨hv, rfl⟩

theorem updateSingleIndex_IdcsOk (indices : Indices) (name : String)
    (oldVals newVals : List String) (key : String) (h : IdcsOk indices) :
    IdcsOk (updateSingleIndex indices name oldVals newVals key) := by
  intro n idx hidx
  by_cases hn : n = name
  · subst hn
    rw [updateSingleIndex_apply_self] at hidx
    have hbase : IdxOk ((indices n).getD emptyIndex) := by
      cases hind : indices n with
      | none =>
        intro v set hset
        exact absurd hset (by simp [emptyIndex])
      | some idx0 =>
        simpa using h n idx0 hind
    by_cases hfp : fastPath oldVals newVals
    · rw [if_pos hfp] at hidx
      obtain rfl := (Option.some_inj.mp hidx).symm
      exact hbase
    · rw [if_neg hfp] at hidx
      obtain rfl := (Option.some_inj.mp hidx).symm
      exact IdxOk_addFold _ _ _ (IdxOk_deleteFold _ _ _ hbase)
  · rw [updateSingleIndex_apply_ne _ _ _ _ _ _ hn] at hidx
    exact h n idx hidx

theorem updateSingleIndex_isSome_self (indices : Indices) (name : String)
    (oldVals newVals : List String) (key : String) :
    (updateSingleIndex indices name oldVals newVals key name).isSome := by
  rw [updateSingleIndex_apply_self]
  simp

theorem updateSingleIndex_isSome_mono (indices : Indices) (name : String)
    (oldVals newVals : List String) (key n : String)
    (h : (indices n).isSome) :
    (updateSingleIndex indices name oldVals newVals key n).isSome := by
  by_cases hn : n = name
  · subst hn
    exact updateSingleIndex_isSome_self _ _ _ _ _
  · rw [updateSingleIndex_apply_ne _ _ _ _ _ _ hn]
    exact h

/-! ### updateIndices lemmas -/

theorem updateIndices_ok_funcs {Obj : Type} (l : List (String × IndexFunc Obj))
    (indices indices' : Indices) (old new : Option Obj) (key : String)
    (hrun : updateIndices l indices old new key = some indices') :
    ∀ p ∈ l, (∃ vals, runIndexFunc p.2 old = Except.ok vals) ∧
             (∃ vals, runIndexFunc p.2 new = Except.ok vals) := by
  induction l generalizing indices with
  | nil => simp
  | cons hd rest ih =>
    obtain ⟨name, f⟩ := hd
    simp only [updateIndices] at hrun
    cases hold : runIndexFunc f old with
    | error e => rw [hold] at hrun; simp at hrun
    | ok oldVals =>
      rw [hold] at hrun
      cases hnew : runIndexFunc f new with
      | error e => rw [hnew] at hrun; simp at hrun
      | ok newVals =>
        rw [hnew] at hrun
        intro p hp
        rcases List.mem_cons.mp hp with rfl | hmem
        · exact ⟨⟨oldVals, hold⟩, ⟨newVals, hnew⟩⟩
        · exact ih _ hrun p hmem

/-- The main reconcile lemma: when updateIndices completes without a
panic, buckets of names not in the registry are untouched, the
written key's memberships become exactly the new object's index
values, other keys' memberships are untouched, no empty bucket is
created, and every registered name gains an Index entry.  The hOld
hypothesis says the written key's current memberships agree with the
old object's index values — this is what makes the fast path sound. -/
theorem updateIndices_spec {Obj : Type} (l : List (String × IndexFunc Obj))
    (indices indices' : Indices) (old new : Option Obj) (key : String)
    (hnodup : (l.map Prod.fst).Nodup)
    (hrun : updateIndices l indices old new key = some indices')
    (hOld : ∀ name f, (name, f) ∈ l → ∀ v,
      (memB indices name v key ↔ ∃ vals, runIndexFunc f old = Except.ok vals ∧ v ∈ vals)) :
    (∀ n, n ∉ l.map Prod.fst → indices' n = indices n)
    ∧ (∀ name f, (name, f) ∈ l → ∀ v,
        (memB indices' name v key ↔ ∃ vals, runIndexFunc f new = Except.ok vals ∧ v ∈ vals))
    ∧ (∀ n v k, k ≠ key → (memB indices' n v k ↔ memB indices n v k))
    ∧ (IdcsOk indices → IdcsOk indices')
    ∧ (∀ name f, (name, f) ∈ l → (indices' name).isSome)
    ∧ (∀ n, (indices n).isSome → (indices' n).isSome) := by
  induction l generalizing indices with
  | nil =>
    obtain rfl : indices = indices' := by
      simpa [updateIndices] using hrun
    exact ⟨fun n _ => rfl, by simp, fun n v k _ => Iff.rfl, fun h => h, by simp,
      fun n h => h⟩
  | cons hd rest ih =>
    obtain ⟨name, f⟩ := hd
    simp only [updateIndices] at hrun
    cases hold : runIndexFunc f old with
    | error e => rw [hold] at hrun; simp at hrun
    | ok oldVals =>
      rw [hold] at hrun
      cases hnew : runIndexFunc f new with
      | error e => rw [hnew] at hrun; simp at hrun
      | ok newVals =>
        rw [hnew] at hrun
        simp only [List.map_cons, List.nodup_cons] at hnodup
        obtain ⟨hname, hnodup'⟩ := hnodup
        have hOldHead : ∀ v', memB indices name v' key ↔ v' ∈ oldVals := by
          intro v'
          rw [hOld name f (List.mem_cons_self _ _) v']
          constructor
          · rintro ⟨vals, hvals, hv⟩
            rw [hold] at hvals
            obtain rfl : oldVals = vals := by injection hvals
            exact hv
          · intro hv
            exact ⟨oldVals, hold, hv⟩
        have hOldRest : ∀ n2 f2, (n2, f2) ∈ rest → ∀ v,
            (memB (updateSingleIndex indices name oldVals newVals key) n2 v key ↔
              ∃ vals, runIndexFunc f2 old = Except.ok vals ∧ v ∈ vals) := by
          intro n2 f2 hmem v
          have hne : n2 ≠ name := by
            intro hc
            apply hname
            rw [← hc]
            exact List.mem_map.mpr ⟨(n2, f2), hmem, rfl⟩
          rw [memB_updateSingleIndex_other_name _ _ _ _ _ _ _ _ hne]
          exact hOld n2 f2 (List.mem_cons_of_mem _ hmem) v
        obtain ⟨ihF, ihNew, ihOther, ihB, ihSome, ihMono⟩ :=
          ih _ hnodup' hrun hOldRest
        refine ⟨?_, ?_, ?_, ?_, ?_, ?_⟩
        · intro n hn
          simp only [List.map_cons, List.mem_cons] at hn
          push_neg at hn
          rw [ihF n hn.2]
          exact updateSingleIndex_apply_ne _ _ _ _ _ _ hn.1
        · intro n2 f2 hmem v
          rcases List.mem_cons.mp hmem with heq | hmem'
          · obtain ⟨rfl, rfl⟩ : n2 = name ∧ f2 = f := by
              constructor
              · exact congrArg Prod.fst heq
              · exact congrArg Prod.snd heq
            have hframe : indices' n2 = updateSingleIndex indices n2 oldVals newVals key n2 := by
              apply ihF
              intro hc
              apply hname
              simpa using hc
            have : memB indices' n2 v key ↔
                memB (updateSingleIndex indices n2 oldVals newVals key) n2 v key := by
              unfold memB
              rw [hframe]
            rw [this]
            rw [memB_updateSingleIndex_self_key _ _ _ _ _ _ hOldHead]
            constructor
            · intro hv
              exact ⟨newVals, hnew, hv⟩
            · rintro ⟨vals, hvals, hv⟩
              rw [hnew] at hvals
              obtain rfl : newVals = vals := by injection hvals
              exact hv
          · exact ihNew n2 f2 hmem' v
        · intro n v k hk
          rw [ihOther n v k hk]
          by_cases hn : n = name
          · subst hn
            exact memB_updateSingleIndex_other_key _ _ _ _ _ _ _ hk
          · exact memB_updateSingleIndex_other_name _ _ _ _ _ _ _ _ hn
        · intro hB
          exact ihB (updateSingleIndex_IdcsOk _ _ _ _ _ hB)
        · intro n2 f2 hmem
          rcases List.mem_cons.mp hmem with heq | hmem'
          · obtain rfl : n2 = name := congrArg Prod.fst heq
            apply ihMono
            exact updateSingleIndex_isSome_self _ _ _ _ _
          · exact ihSome n2 f2 hmem'
        · intro n hsome
          exact ihMono n (updateSingleIndex_isSome_mono _ _ _ _ _ _ hsome)

/-- A reconcile pass aborts exactly when some registered index
function fails on the old or the new object (when that object is
present; an absent object is never passed to an index function). -/
theorem updateIndices_isNone_iff {Obj : Type} (l : List (String × IndexFunc Obj))
    (indices : Indices) (old new : Option Obj) (key : String) :
    updateIndices l indices old new key = none ↔
      ∃ name f, (name, f) ∈ l ∧
        ((∃ x e, old = some x ∧ f x = Except.error e) ∨
         (∃ x e, new = some x ∧ f x = Except.error e)) := by
  induction l generalizing indices with
  | nil =>
    simp [updateIndices]
  | cons hd rest ih =>
    obtain ⟨name, f⟩ := hd
    simp only [updateIndices]
    cases hold : runIndexFunc f old with
    | error e =>
      simp only []
      constructor
      · intro _
        refine ⟨name, f, List.mem_cons_self _ _, Or.inl ?_⟩
        cases old with
        | none => simp [runIndexFunc] at hold
        | some x =>
          exact ⟨x, e, rfl, by simpa [runIndexFunc] using hold⟩
      · intro _
        trivial
    | ok oldVals =>
      cases hnew : runIndexFunc f new with
      | error e =>
        simp only []
        constructor
        · intro _
          refine ⟨name, f, List.mem_cons_self _ _, Or.inr ?_⟩
          cases new with
          | none => simp [runIndexFunc] at hnew
          | some x =>
            exact ⟨x, e, rfl, by simpa [runIndexFunc] using hnew⟩
        · intro _
          trivial
      | ok newVals =>
        simp only []
        rw [ih]
        constructor
        · rintro ⟨n2, f2, hmem, herr⟩
          exact ⟨n2, f2, List.mem_cons_of_mem _ hmem, herr⟩
        · rintro ⟨n2, f2, hmem, herr⟩
          rcases List.mem_cons.mp hmem with heq | hmem'
          · obtain ⟨rfl, rfl⟩ : n2 = name ∧ f2 = f := by
              constructor
              · exact congrArg Prod.fst heq
              · exact congrArg Prod.snd heq
            exfalso
            rcases herr with ⟨x, e, hx, hfx⟩ | ⟨x, e, hx, hfx⟩
            · rw [hx] at hold
              simp only [runIndexFunc] at hold
              rw [hfx] at hold
              exact absurd hold (by simp)
            · rw [hx] at hnew
              simp only [runIndexFunc] at hnew
              rw [hfx] at hnew
              exact absurd hnew (by simp)
          · exact ⟨n2, f2, hmem', herr⟩

/-! ### More association-list lemmas -/

theorem mapLookup_append_left {α : Type} (m₁ m₂ : List (String × α)) (k : String) (v : α)
    (h : mapLookup m₁ k = some v) : mapLookup (m₁ ++ m₂) k = some v := by
  induction m₁ with
  | nil => simp [mapLookup] at h
  | cons p rest ih =>
    obtain ⟨k0, v0⟩ := p
    simp only [mapLookup, List.cons_append] at h ⊢
    by_cases hk : k0 = k
    · rw [if_pos hk] at h ⊢
      exact h
    · rw [if_neg hk] at h ⊢
      exact ih h

theorem mapLookup_mem_keys {α : Type} (m : List (String × α)) (k : String) (v : α)
    (h : mapLookup m k = some v) : k ∈ m.map Prod.fst := by
  have := mapLookup_eq_some_imp_mem m k v h
  exact List.mem_map.mpr ⟨(k, v), this, rfl⟩

theorem mapInsert_keys {α : Type} (m : List (String × α)) (key : String) (v : α) (n : String) :
    n ∈ (mapInsert m key v).map Prod.fst ↔ n ∈ m.map Prod.fst ∨ n = key := by
  induction m with
  | nil => simp [mapInsert]
  | cons p rest ih =>
    obtain ⟨k0, v0⟩ := p
    simp only [mapInsert]
    by_cases hk : k0 = key
    · rw [if_pos hk]
      subst hk
      simp only [List.map_cons, List.mem_cons]
      constructor
      · rintro (rfl | h)
        · exact Or.inr rfl
        · exact Or.inl (Or.inr h)
      · rintro ((rfl | h) | rfl)
        · exact Or.inl rfl
        · exact Or.inr h
        · exact Or.inl rfl
    · rw [if_neg hk]
      simp only [List.map_cons, List.mem_cons]
      rw [ih]
      constructor
      · rintro (rfl | (h | rfl))
        · exact Or.inl (Or.inl rfl)
        · exact Or.inl (Or.inr h)
        · exact Or.inr rfl
      · rintro ((rfl | h) | rfl)
        · exact Or.inl rfl
        · exact Or.inr (Or.inl h)
        · exact Or.inr (Or.inr rfl)

theorem mapInsert_nodup {α : Type} (m : List (String × α)) (key : String) (v : α)
    (h : (m.map Prod.fst).Nodup) : ((mapInsert m key v).map Prod.fst).Nodup := by
  induction m with
  | nil => simp [mapInsert]
  | cons p rest ih =>
    obtain ⟨k0, v0⟩ := p
    simp only [List.map_cons, List.nodup_cons] at h
    simp only [mapInsert]
    by_cases hk : k0 = key
    · rw [if_pos hk]
      subst hk
      simp only [List.map_cons, List.nodup_cons]
      exact h
    · rw [if_neg hk]
      simp only [List.map_cons, List.nodup_cons]
      refine ⟨?_, ih h.2⟩
      intro hc
      rw [mapInsert_keys] at hc
      rcases hc with hc | hc
      · exact h.1 hc
      · exact hk hc

/-! ### The reachable-state invariant -/

/-- The store invariant: index consistency (a key is bucketed under a
value for a name iff the name is registered, the key is stored, and
the value is among the index values of the stored object), no empty
buckets, every registered name has an Index entry once the table is
non-empty, registered names are unique, and every stored object is
accepted by every registered index function. -/
structure Inv {Obj : Type} (s : StoreState Obj) : Prop where
  cons : ∀ name v k, memB s.index.indices name v k ↔
    ∃ f, mapLookup s.index.indexers name = some f ∧
    ∃ o, mapLookup s.items k = some o ∧
    ∃ vals, runIndexFunc f o = Except.ok vals ∧ v ∈ vals
  buckets : IdcsOk s.index.indices
  covered : s.items ≠ [] → ∀ p ∈ s.index.indexers, (s.index.indices p.1).isSome
  nodupNames : (s.index.indexers.map Prod.fst).Nodup
  funcsOk : ∀ k o, mapLookup s.items k = some o →
    ∀ p ∈ s.index.indexers, ∃ vals, runIndexFunc p.2 o = Except.ok vals

theorem Inv_new {Obj : Type} (indexers : List (String × IndexFunc Obj))
    (h : (indexers.map Prod.fst).Nodup) : Inv (NewThreadSafeStore indexers) := by
  refine ⟨?_, ?_, ?_, h, ?_⟩
  · intro name v k
    constructor
    · rintro ⟨idx, hidx, -⟩
      exact absurd hidx (by simp [NewThreadSafeStore, emptyIndices])
    · rintro ⟨f, -, o, ho, -⟩
      exact absurd ho (by simp [NewThreadSafeStore, mapLookup])
  · intro n idx hidx
    exact absurd hidx (by simp [NewThreadSafeStore, emptyIndices])
  · intro hne
    exact absurd rfl hne
  · intro k o ho
    exact absurd ho (by simp [NewThreadSafeStore, mapLookup])

/-- The hOld hypothesis of updateIndices_spec holds at any invariant
state when the old object is the one captured from the table by
Update (the join of the lookup). -/
theorem Inv_hOld_update {Obj : Type} (s : StoreState Obj) (hs : Inv s) (key : String) :
    ∀ name f, (name, f) ∈ s.index.indexers → ∀ v,
      (memB s.index.indices name v key ↔
        ∃ vals, runIndexFunc f ((mapLookup s.items key).join) = Except.ok vals ∧ v ∈ vals) := by
  intro name f hmem v
  have hlook : mapLookup s.index.indexers name = some f :=
    mem_imp_mapLookup _ _ _ hs.nodupNames hmem
  rw [hs.cons name v key]
  constructor
  · rintro ⟨f', hf', o, ho, vals, hvals, hv⟩
    obtain rfl : f = f' := by
      rw [hlook] at hf'
      injection hf'
    rw [ho]
    exact ⟨vals, hvals, hv⟩
  · rintro ⟨vals, hvals, hv⟩
    cases hitem : mapLookup s.items key with
    | none =>
      rw [hitem] at hvals
      have hred : runIndexFunc f ((none : Option (Option Obj)).join) =
          Except.ok ([] : List String) := rfl
      rw [hred] at hvals
      obtain rfl : ([] : List String) = vals := by injection hvals
      simp at hv
    | some o =>
      rw [hitem] at hvals
      have hred : ((some o).join : Option Obj) = o := rfl
      rw [hred] at hvals
      exact ⟨f, hlook, o, rfl, vals, hvals, hv⟩

theorem Inv_Update {Obj : Type} (s s' : StoreState Obj) (key : String) (obj : Option Obj)
    (hs : Inv s) (hup : Update s key obj = some s') : Inv s' := by
  unfold Update at hup
  cases hrun : updateIndices s.index.indexers s.index.indices
      ((mapLookup s.items key).join) obj key with
  | none =>
    rw [hrun] at hup
    simp at hup
  | some ind =>
    rw [hrun] at hup
    obtain rfl : (⟨mapInsert s.items key obj,
        ⟨s.index.indexers, ind⟩⟩ : StoreState Obj) = s' := by
      injection hup
    obtain ⟨specF, specNew, specOther, specB, specSome, specMono⟩ :=
      updateIndices_spec _ _ _ _ _ _ hs.nodupNames hrun (Inv_hOld_update s hs key)
    have hfuncs := updateIndices_ok_funcs _ _ _ _ _ _ hrun
    refine ⟨?_, specB hs.buckets, ?_, hs.nodupNames, ?_⟩
    · intro name v k
      dsimp only
      by_cases hk : k = key
      · subst hk
        cases hlook : mapLookup s.index.indexers name with
        | none =>
          have hnotin : name ∉ s.index.indexers.map Prod.fst := by
            rw [← mapLookup_eq_none_iff]
            exact hlook
          have hframe : ind name = s.index.indices name := specF name hnotin
          constructor
          · rintro ⟨idx, hidx, hm⟩
            rw [hframe] at hidx
            have hmB : memB s.index.indices name v k := ⟨idx, hidx, hm⟩
            rw [hs.cons] at hmB
            obtain ⟨f', hf', -⟩ := hmB
            rw [hlook] at hf'
            exact absurd hf' (by simp)
          · rintro ⟨f', hf', -⟩
            exact absurd hf' (by simp)
        | some f =>
          have hmem : (name, f) ∈ s.index.indexers :=
            mapLookup_eq_some_imp_mem _ _ _ hlook
          rw [specNew name f hmem v]
          constructor
          · rintro ⟨vals, hvals, hv⟩
            exact ⟨f, rfl, obj, mapLookup_insert_self _ _ _, vals, hvals, hv⟩
          · rintro ⟨f', hf', o', ho', vals, hvals, hv⟩
            rw [mapLookup_insert_self] at ho'
            obtain rfl : obj = o' := by injection ho'
            obtain rfl : f = f' := by injection hf'
            exact ⟨vals, hvals, hv⟩
      · rw [specOther name v k hk]
        rw [hs.cons name v k]
        rw [mapLookup_insert_ne _ _ _ _ hk]
    · intro _ p hp
      exact specSome p.1 p.2 hp
    · intro k o ho p hp
      dsimp only at ho
      by_cases hk : k = key
      · subst hk
        rw [mapLookup_insert_self] at ho
        obtain rfl : obj = o := by injection ho
        exact (hfuncs p hp).2
      · rw [mapLookup_insert_ne _ _ _ _ hk] at ho
        exact hs.funcsOk k o ho p hp

theorem Inv_Delete {Obj : Type} (s s' : StoreState Obj) (key : String)
    (hs : Inv s) (hdel : Delete s key = some s') : Inv s' := by
  unfold Delete at hdel
  cases hitem : mapLookup s.items key with
  | none =>
    rw [hitem] at hdel
    obtain rfl : s = s' := by injection hdel
    exact hs
  | some obj =>
    rw [hitem] at hdel
    have hdel2 : (match updateIndices s.index.indexers s.index.indices obj none key with
        | none => none
        | some ind => some (⟨mapErase s.items key,
            ⟨s.index.indexers, ind⟩⟩ : StoreState Obj)) = some s' := hdel
    cases hrun : updateIndices s.index.indexers s.index.indices obj none key with
    | none =>
      rw [hrun] at hdel2
      simp at hdel2
    | some ind =>
      rw [hrun] at hdel2
      obtain rfl : (⟨mapErase s.items key,
          ⟨s.index.indexers, ind⟩⟩ : StoreState Obj) = s' := by
        injection hdel2
      have hOld : ∀ name f, (name, f) ∈ s.index.indexers → ∀ v,
          (memB s.index.indices name v key ↔
            ∃ vals, runIndexFunc f obj = Except.ok vals ∧ v ∈ vals) := by
        intro name f hmem v
        have hbase := Inv_hOld_update s hs key name f hmem v
        rw [hitem] at hbase
        exact hbase
      obtain ⟨specF, specNew, specOther, specB, specSome, specMono⟩ :=
        updateIndices_spec _ _ _ _ _ _ hs.nodupNames hrun hOld
      refine ⟨?_, specB hs.buckets, ?_, hs.nodupNames, ?_⟩
      · intro name v k
        dsimp only
        by_cases hk : k = key
        · subst hk
          constructor
          · intro hmB
            exfalso
            cases hlook : mapLookup s.index.indexers name with
            | none =>
              have hnotin : name ∉ s.index.indexers.map Prod.fst := by
                rw [← mapLookup_eq_none_iff]
                exact hlook
              obtain ⟨idx, hidx, hm⟩ := hmB
              rw [specF name hnotin] at hidx
              have hmB' : memB s.index.indices name v k := ⟨idx, hidx, hm⟩
              rw [hs.cons] at hmB'
              obtain ⟨f', hf', -⟩ := hmB'
              rw [hlook] at hf'
              exact absurd hf' (by simp)
            | some f =>
              have hmem : (name, f) ∈ s.index.indexers :=
                mapLookup_eq_some_imp_mem _ _ _ hlook
              rw [specNew name f hmem v] at hmB
              obtain ⟨vals, hvals, hv⟩ := hmB
              have hvals' : (Except.ok ([] : List String) : Except String (List String)) =
                  Except.ok vals := hvals
              obtain rfl : ([] : List String) = vals := by injection hvals'
              simp at hv
          · rintro ⟨f', -, o', ho', -⟩
            rw [mapLookup_erase_self] at ho'
            exact absurd ho' (by simp)
        · rw [specOther name v k hk]
          rw [hs.cons name v k]
          rw [mapLookup_erase_ne _ _ _ hk]
      · intro _ p hp
        exact specSome p.1 p.2 hp
      · intro k o ho p hp
        dsimp only at ho
        by_cases hk : k = key
        · subst hk
          rw [mapLookup_erase_self] at ho
          exact absurd ho (by simp)
        · rw [mapLookup_erase_ne _ _ _ hk] at ho
          exact hs.funcsOk k o ho p hp

theorem mapLookup_append_singleton_self {Obj : Type} (m : List (String × Option Obj))
    (k0 : String) (o0 : Option Obj) (h : mapLookup m k0 = none) :
    mapLookup (m ++ [(k0, o0)]) k0 = some o0 := by
  rw [mapLookup_append_of_none _ _ _ h]
  simp [mapLookup]

theorem mapLookup_append_singleton_ne {Obj : Type} (m : List (String × Option Obj))
    (k0 k : String) (o0 : Option Obj) (h : k ≠ k0) :
    mapLookup (m ++ [(k0, o0)]) k = mapLookup m k := by
  cases hm : mapLookup m k with
  | some v => exact mapLookup_append_left _ _ _ _ hm
  | none =>
    rw [mapLookup_append_of_none _ _ _ hm]
    simp only [mapLookup]
    rw [if_neg (fun hh => h hh.symm)]

/-- The reindexing loop of Replace, processed entry by entry: starting
from indices consistent with a virtual table items0 disjoint from the
entries, the result is consistent with items0 extended by the entries,
no empty bucket appears, every registered name gains an entry once one
item is processed, and every processed object passed every index
function. -/
theorem reindexAll_spec {Obj : Type} (l : List (String × IndexFunc Obj)) :
    ∀ (ents items0 : List (String × Option Obj)) (indices indices' : Indices),
    (l.map Prod.fst).Nodup →
    (ents.map Prod.fst).Nodup →
    (∀ k ∈ ents.map Prod.fst, mapLookup items0 k = none) →
    reindexAll l ents indices = some indices' →
    (∀ name v k, memB indices name v k ↔
      ∃ f, mapLookup l name = some f ∧ ∃ o, mapLookup items0 k = some o ∧
      ∃ vals, runIndexFunc f o = Except.ok vals ∧ v ∈ vals) →
    (∀ name v k, memB indices' name v k ↔
      ∃ f, mapLookup l name = some f ∧ ∃ o, mapLookup (items0 ++ ents) k = some o ∧
      ∃ vals, runIndexFunc f o = Except.ok vals ∧ v ∈ vals)
    ∧ (IdcsOk indices → IdcsOk indices')
    ∧ (ents ≠ [] → ∀ p ∈ l, (indices' p.1).isSome)
    ∧ (∀ n, (indices n).isSome → (indices' n).isSome)
    ∧ (∀ ko ∈ ents, ∀ p ∈ l, ∃ vals, runIndexFunc p.2 ko.2 = Except.ok vals) := by
  intro ents
  induction ents with
  | nil =>
    intro items0 indices indices' hnodupl hnodupe hdisj hrun hcons
    obtain rfl : indices = indices' := by
      simpa [reindexAll] using hrun
    refine ⟨?_, fun h => h, fun h => absurd rfl h, fun n h => h, by simp⟩
    intro name v k
    rw [hcons name v k]
    simp
  | cons hd rest ih =>
    intro items0 indices indices' hnodupl hnodupe hdisj hrun hcons
    obtain ⟨k0, o0⟩ := hd
    unfold reindexAll at hrun
    cases hstep : updateIndices l indices none o0 k0 with
    | none => rw [hstep] at hrun; simp at hrun
    | some ind1 =>
      rw [hstep] at hrun
      simp only [List.map_cons, List.nodup_cons] at hnodupe
      obtain ⟨hk0, hnodupe'⟩ := hnodupe
      have hdisj0 : mapLookup items0 k0 = none :=
        hdisj k0 (by simp)
      have hOld : ∀ name f, (name, f) ∈ l → ∀ v,
          (memB indices name v k0 ↔
            ∃ vals, runIndexFunc f (none : Option Obj) = Except.ok vals ∧ v ∈ vals) := by
        intro name f hmem v
        rw [hcons name v k0]
        constructor
        · rintro ⟨f', -, o, ho, -⟩
          rw [hdisj0] at ho
          exact absurd ho (by simp)
        · rintro ⟨vals, hvals, hv⟩
          have hvals' : (Except.ok ([] : List String) : Except String (List String)) =
              Except.ok vals := hvals
          obtain rfl : ([] : List String) = vals := by injection hvals'
          simp at hv
      obtain ⟨specF, specNew, specOther, specB, specSome, specMono⟩ :=
        updateIndices_spec _ _ _ _ _ _ hnodupl hstep hOld
      have hfuncs := updateIndices_ok_funcs _ _ _ _ _ _ hstep
      have hcons1 : ∀ name v k, memB ind1 name v k ↔
          ∃ f, mapLookup l name = some f ∧
          ∃ o, mapLookup (items0 ++ [(k0, o0)]) k = some o ∧
          ∃ vals, runIndexFunc f o = Except.ok vals ∧ v ∈ vals := by
        intro name v k
        by_cases hk : k = k0
        · subst hk
          cases hlook : mapLookup l name with
          | none =>
            have hnotin : name ∉ l.map Prod.fst := by
              rw [← mapLookup_eq_none_iff]
              exact hlook
            constructor
            · rintro ⟨idx, hidx, hm⟩
              rw [specF name hnotin] at hidx
              have hmB : memB indices name v k := ⟨idx, hidx, hm⟩
              rw [hcons name v k] at hmB
              obtain ⟨f', hf', -⟩ := hmB
              rw [hlook] at hf'
              exact absurd hf' (by simp)
            · rintro ⟨f', hf', -⟩
              exact absurd hf' (by simp)
          | some f =>
            have hmem : (name, f) ∈ l := mapLookup_eq_some_imp_mem _ _ _ hlook
            rw [specNew name f hmem v]
            constructor
            · rintro ⟨vals, hvals, hv⟩
              exact ⟨f, rfl, o0,
                mapLookup_append_singleton_self _ _ _ hdisj0, vals, hvals, hv⟩
            · rintro ⟨f', hf', o', ho', vals, hvals, hv⟩
              rw [mapLookup_append_singleton_self _ _ _ hdisj0] at ho'
              obtain rfl : o0 = o' := by injection ho'
              obtain rfl : f = f' := by injection hf'
              exact ⟨vals, hvals, hv⟩
        · rw [specOther name v k hk]
          rw [hcons name v k]
          rw [mapLookup_append_singleton_ne _ _ _ _ hk]
      have hdisj1 : ∀ k ∈ rest.map Prod.fst, mapLookup (items0 ++ [(k0, o0)]) k = none := by
        intro k hkmem
        have hkne : k ≠ k0 := by
          intro hc
          apply hk0
          rw [← hc]
          exact hkmem
        rw [mapLookup_append_singleton_ne _ _ _ _ hkne]
        exact hdisj k (by simp [hkmem])
      obtain ⟨ihCons, ihB, ihSome, ihMono, ihFn⟩ :=
        ih (items0 ++ [(k0, o0)]) ind1 indices' hnodupl hnodupe' hdisj1 hrun hcons1
      have happend : (items0 ++ [(k0, o0)]) ++ rest = items0 ++ ((k0, o0) :: rest) := by
        simp
      refine ⟨?_, ?_, ?_, ?_, ?_⟩
      · intro name v k
        rw [ihCons name v k, happend]
      · intro hB
        exact ihB (specB hB)
      · intro _ p hp
        cases hrest : rest with
        | nil =>
          subst hrest
          have : indices' = ind1 := by
            simpa [reindexAll] using hrun.symm
          rw [this]
          exact specSome p.1 p.2 hp
        | cons r rs =>
          apply ihSome
          · rw [hrest]
            simp
          · exact hp
      · intro n hsome
        exact ihMono n (specMono n hsome)
      · intro ko hko p hp
        rcases List.mem_cons.mp hko with rfl | hko'
        · exact (hfuncs p hp).2
        · exact ihFn ko hko' p hp

theorem Inv_Replace {Obj : Type} (s s' : StoreState Obj)
    (M : List (String × Option Obj)) (rv : String)
    (hs : Inv s) (hwf : (M.map Prod.fst).Nodup) (hrep : Replace s M rv = some s') :
    Inv s' := by
  unfold Replace at hrep
  cases hrun : reindexAll s.index.indexers M emptyIndices with
  | none => rw [hrun] at hrep; simp at hrep
  | some ind =>
    rw [hrun] at hrep
    obtain rfl : (⟨M, ⟨s.index.indexers, ind⟩⟩ : StoreState Obj) = s' := by
      injection hrep
    have hdisj : ∀ k ∈ M.map Prod.fst, mapLookup ([] : List (String × Option Obj)) k = none := by
      intro k _
      rfl
    have hcons0 : ∀ name v k, memB emptyIndices name v k ↔
        ∃ f, mapLookup s.index.indexers name = some f ∧
        ∃ o, mapLookup ([] : List (String × Option Obj)) k = some o ∧
        ∃ vals, runIndexFunc f o = Except.ok vals ∧ v ∈ vals := by
      intro name v k
      constructor
      · rintro ⟨idx, hidx, -⟩
        exact absurd hidx (by simp [emptyIndices])
      · rintro ⟨f, -, o, ho, -⟩
        exact absurd ho (by simp [mapLookup])
    obtain ⟨ihCons, ihB, ihSome, ihMono, ihFn⟩ :=
      reindexAll_spec s.index.indexers M [] emptyIndices ind
        hs.nodupNames hwf hdisj hrun hcons0
    refine ⟨?_, ?_, ?_, hs.nodupNames, ?_⟩
    · intro name v k
      dsimp only
      rw [ihCons name v k]
      simp only [List.nil_append]
    · apply ihB
      intro n idx hidx
      exact absurd hidx (by simp [emptyIndices])
    · intro hne p hp
      exact ihSome hne p hp
    · intro k o ho p hp
      dsimp only at ho
      have hmem : (k, o) ∈ M := mapLookup_eq_some_imp_mem _ _ _ ho
      exact ihFn (k, o) hmem p hp

theorem foldInsert_lookup {Obj : Type} (new : List (String × IndexFunc Obj)) :
    ∀ (m : List (String × IndexFunc Obj)) (n : String), (new.map Prod.fst).Nodup →
    mapLookup (new.foldl (fun m p => mapInsert m p.1 p.2) m) n =
      match mapLookup new n with
      | some f => some f
      | none => mapLookup m n := by
  induction new with
  | nil =>
    intro m n _
    rfl
  | cons hd rest ih =>
    intro m n hnodup
    obtain ⟨k0, f0⟩ := hd
    simp only [List.map_cons, List.nodup_cons] at hnodup
    simp only [List.foldl_cons]
    rw [ih _ n hnodup.2]
    by_cases hn : k0 = n
    · subst hn
      have hrest : mapLookup rest k0 = none := by
        rw [mapLookup_eq_none_iff]
        exact hnodup.1
      simp [hrest, mapLookup, mapLookup_insert_self]
    · simp only [mapLookup, if_neg hn]
      cases hr : mapLookup rest n with
      | some f => rfl
      | none =>
        rw [mapLookup_insert_ne _ _ _ _ (fun hh => hn hh.symm)]

theorem foldInsert_nodup {Obj : Type} (new : List (String × IndexFunc Obj)) :
    ∀ m : List (String × IndexFunc Obj), (m.map Prod.fst).Nodup →
    ((new.foldl (fun m p => mapInsert m p.1 p.2) m).map Prod.fst).Nodup := by
  induction new with
  | nil => intro m hm; exact hm
  | cons p rest ih =>
    intro m hm
    simp only [List.foldl_cons]
    exact ih _ (mapInsert_nodup _ _ _ hm)

theorem Inv_AddIndexers {Obj : Type} (s : StoreState Obj)
    (new : List (String × IndexFunc Obj)) (hs : Inv s) :
    Inv (AddIndexers s new).1 := by
  unfold AddIndexers
  by_cases hlen : s.items.length > 0
  · rw [if_pos hlen]
    exact hs
  · rw [if_neg hlen]
    have hitems : s.items = [] := by
      cases hi : s.items with
      | nil => rfl
      | cons a l =>
        exfalso
        apply hlen
        rw [hi]
        simp
    unfold addIndexers
    by_cases hc : ((new.map Prod.fst).filter
        (fun n => decide (n ∈ s.index.indexers.map Prod.fst))) = []
    · rw [if_pos hc]
      dsimp only
      refine ⟨?_, hs.buckets, ?_, ?_, ?_⟩
      · intro name v k
        constructor
        · intro hmB
          exfalso
          have hmB' := hmB
          rw [hs.cons name v k] at hmB'
          obtain ⟨f', -, o, ho, -⟩ := hmB'
          rw [hitems] at ho
          exact absurd ho (by simp [mapLookup])
        · rintro ⟨f, -, o, ho, -⟩
          rw [hitems] at ho
          exact absurd ho (by simp [mapLookup])
      · intro hne
        exfalso
        apply hne
        exact hitems
      · exact foldInsert_nodup _ _ hs.nodupNames
      · intro k o ho
        rw [hitems] at ho
        exact absurd ho (by simp [mapLookup])
    · rw [if_neg hc]
      exact hs

theorem Inv_applyOp {Obj : Type} (s s' : StoreState Obj) (op : Op Obj)
    (hs : Inv s) (hwf : op.WF) (happ : applyOp s op = some s') : Inv s' := by
  cases op with
  | add key obj => exact Inv_Update s s' key obj hs happ
  | update key obj => exact Inv_Update s s' key obj hs happ
  | delete key => exact Inv_Delete s s' key hs happ
  | replace m rv => exact Inv_Replace s s' m rv hs hwf happ
  | addIndexers new =>
    obtain rfl : (AddIndexers s new).1 = s' := by
      simpa [applyOp] using happ
    exact Inv_AddIndexers s new hs

theorem Inv_runOps {Obj : Type} (ops : List (Op Obj)) :
    ∀ s s' : StoreState Obj, Inv s → (∀ op ∈ ops, op.WF) →
    runOps s ops = some s' → Inv s' := by
  induction ops with
  | nil =>
    intro s s' hs _ hrun
    obtain rfl : s = s' := by
      simpa [runOps] using hrun
    exact hs
  | cons op rest ih =>
    intro s s' hs hwf hrun
    unfold runOps at hrun
    cases happ : applyOp s op with
    | none => rw [happ] at hrun; simp at hrun
    | some s1 =>
      rw [happ] at hrun
      exact ih s1 s' (Inv_applyOp s s1 op hs (hwf op (by simp)) happ)
        (fun o ho => hwf o (by simp [ho])) hrun

theorem Op_isBasic_WF {Obj : Type} (op : Op Obj) (h : op.isBasic) : op.WF := by
  cases op <;> simp [Op.isBasic, Op.WF] at h ⊢

/-! ### The claims -/

/-- Claim C4: during reconcile, updateIndices aborts (panics, modelled
as none) exactly when some registered index function returns an error
on the old object or on the new object (an absent object is never
passed to an index function); conversely, when no index function
errors, reconcile completes normally (returns some). -/
theorem claim_C4_reconcile_abort_iff_indexfunc_error {Obj : Type}
    (indexers : List (String × IndexFunc Obj)) (indices : Indices)
    (oldObj newObj : Option Obj) (key : String) :
    updateIndices indexers indices oldObj newObj key = none ↔
      ∃ name f, (name, f) ∈ indexers ∧
        ((∃ x e, oldObj = some x ∧ f x = Except.error e) ∨
         (∃ x e, newObj = some x ∧ f x = Except.error e)) :=
  updateIndices_isNone_iff indexers indices oldObj newObj key

/-- Claim C5: the index engine's addIndexers fails with an
indexerConflict listing exactly the names present in both the new
set and the registry, leaving the registry and the indices unchanged;
with no collision it succeeds and the registry becomes the union of
the old registry and the new indexers, with the indices untouched. -/
theorem claim_C5_addIndexers_conflict {Obj : Type} (si : StoreIndex Obj)
    (newIndexers : List (String × IndexFunc Obj)) :
    ((∃ n, n ∈ newIndexers.map Prod.fst ∧ n ∈ si.indexers.map Prod.fst) →
      ∃ names, addIndexers si newIndexers = (si, some (StoreErr.indexerConflict names)) ∧
        ∀ n, n ∈ names ↔ (n ∈ newIndexers.map Prod.fst ∧ n ∈ si.indexers.map Prod.fst))
    ∧ ((newIndexers.map Prod.fst).Nodup →
      (∀ n ∈ newIndexers.map Prod.fst, n ∉ si.indexers.map Prod.fst) →
      (addIndexers si newIndexers).2 = none
      ∧ (addIndexers si newIndexers).1.indices = si.indices
      ∧ ∀ n, mapLookup (addIndexers si newIndexers).1.indexers n =
          match mapLookup newIndexers n with
          | some f => some f
          | none => mapLookup si.indexers n) := by
  constructor
  · rintro ⟨n, hn, ho⟩
    have hne : ((newIndexers.map Prod.fst).filter
        (fun n => decide (n ∈ si.indexers.map Prod.fst))) ≠ [] := by
      apply List.ne_nil_of_mem (a := n)
      rw [List.mem_filter]
      exact ⟨hn, by simpa using ho⟩
    refine ⟨(newIndexers.map Prod.fst).filter
        (fun n => decide (n ∈ si.indexers.map Prod.fst)), ?_, ?_⟩
    · simp only [addIndexers]
      rw [if_neg hne]
    · intro n'
      rw [List.mem_filter]
      simp
  · intro hnodup hnoconf
    have hnil : ((newIndexers.map Prod.fst).filter
        (fun n => decide (n ∈ si.indexers.map Prod.fst))) = [] := by
      rw [List.filter_eq_nil_iff]
      intro a ha
      simpa using hnoconf a ha
    have heq : addIndexers si newIndexers =
        ({ indexers := newIndexers.foldl (fun m p => mapInsert m p.1 p.2) si.indexers,
           indices := si.indices }, none) := by
      simp only [addIndexers]
      rw [if_pos hnil]
    rw [heq]
    refine ⟨rfl, rfl, ?_⟩
    intro n
    exact foldInsert_lookup newIndexers si.indexers n hnodup

/-- Claim C6: the table-level AddIndexers fails with
indexerRegistrationOnNonEmptyStore and changes nothing when the
primary table is non-empty; on an empty table it delegates to the
index engine's addIndexers. -/
theorem claim_C6_addIndexers_nonempty_store {Obj : Type} (s : StoreState Obj)
    (newIndexers : List (String × IndexFunc Obj)) :
    (s.items ≠ [] →
      AddIndexers s newIndexers = (s, some StoreErr.indexerRegistrationOnNonEmptyStore))
    ∧ (s.items = [] →
      AddIndexers s newIndexers =
        ({ items := s.items, index := (addIndexers s.index newIndexers).1 },
         (addIndexers s.index newIndexers).2)) := by
  constructor
  · intro hne
    have hlen : s.items.length > 0 := by
      cases hi : s.items with
      | nil => exact absurd hi hne
      | cons a l => simp [hi]
    simp only [AddIndexers]
    rw [if_pos hlen]
  · intro hempty
    have hlen : ¬s.items.length > 0 := by
      rw [hempty]
      simp
    simp only [AddIndexers]
    rw [if_neg hlen]

/-- Claim C7: deleting a key that is not in the primary table returns
without a panic and leaves the whole state unchanged. -/
theorem claim_C7_delete_missing_noop {Obj : Type} (s : StoreState Obj) (key : String)
    (h : mapLookup s.items key = none) : Delete s key = some s := by
  unfold Delete
  rw [h]

/-- Claim C9: for a registered index name, IndexKeys returns (without
error) exactly the key set currently bucketed under the queried value,
the empty set when no bucket exists; for an unregistered name both
getKeysByIndex and IndexKeys fail with indexNotFound, for any bucket
contents. -/
theorem claim_C9_indexKeys {Obj : Type} (s : StoreState Obj) (name v : String) :
    (∀ f, mapLookup s.index.indexers name = some f →
      ∃ ks, IndexKeys s name v = Except.ok ks ∧
        ∀ k, k ∈ ks ↔ memB s.index.indices name v k)
    ∧ (mapLookup s.index.indexers name = none →
      getKeysByIndex s.index name v = Except.error (StoreErr.indexNotFound name)
      ∧ IndexKeys s name v = Except.error (StoreErr.indexNotFound name)) := by
  constructor
  · intro f hf
    have hbucket : getKeysByIndex s.index name v =
        Except.ok (((s.index.indices name).getD emptyIndex) v) := by
      unfold getKeysByIndex
      rw [hf]
    refine ⟨(((s.index.indices name).getD emptyIndex) v).getD [], ?_, ?_⟩
    · unfold IndexKeys
      rw [hbucket]
    · intro k
      rw [memB_getD]
      unfold idxMem
      cases hb : ((s.index.indices name).getD emptyIndex) v with
      | none =>
        simp only [Option.getD_none]
        constructor
        · intro hk
          simp at hk
        · rintro ⟨set, hset, -⟩
          exact absurd hset (by simp)
      | some set =>
        simp only [Option.getD_some]
        constructor
        · intro hk
          exact ⟨set, rfl, hk⟩
        · rintro ⟨set', hset, hk⟩
          obtain rfl : set = set' := by injection hset
          exact hk
  · intro hnone
    have hgk : getKeysByIndex s.index name v =
        Except.error (StoreErr.indexNotFound name) := by
      unfold getKeysByIndex
      rw [hnone]
    refine ⟨hgk, ?_⟩
    unfold IndexKeys
    rw [hgk]

/-- Claim C1: after every finite sequence of add, update and delete
operations from an empty store, each key in the primary table appears
in exactly the buckets of a registered index whose index-value is
among the values produced by applying that index function to the
key's stored object (none for a nil object), and in no bucket of an
unregistered index name. -/
theorem claim_C1_index_consistency {Obj : Type}
    (indexers : List (String × IndexFunc Obj))
    (hnodup : (indexers.map Prod.fst).Nodup)
    (ops : List (Op Obj)) (hbasic : ∀ op ∈ ops, op.isBasic)
    (s : StoreState Obj)
    (hrun : runOps (NewThreadSafeStore indexers) ops = some s) :
    (∀ name f, mapLookup s.index.indexers name = some f →
      ∀ k o, mapLookup s.items k = some o →
      ∀ v, (memB s.index.indices name v k ↔
        ∃ vals, runIndexFunc f o = Except.ok vals ∧ v ∈ vals))
    ∧ (∀ name, mapLookup s.index.indexers name = none →
      ∀ v k, ¬ memB s.index.indices name v k) := by
  have hinv : Inv s :=
    Inv_runOps ops _ s (Inv_new indexers hnodup)
      (fun op hop => Op_isBasic_WF op (hbasic op hop)) hrun
  constructor
  · intro name f hf k o ho v
    rw [hinv.cons name v k]
    constructor
    · rintro ⟨f', hf', o', ho', vals, hvals, hv⟩
      obtain rfl : f = f' := by
        rw [hf] at hf'
        injection hf'
      obtain rfl : o = o' := by
        rw [ho] at ho'
        injection ho'
      exact ⟨vals, hvals, hv⟩
    · rintro ⟨vals, hvals, hv⟩
      exact ⟨f, hf, o, ho, vals, hvals, hv⟩
  · intro name hnone v k hmB
    rw [hinv.cons name v k] at hmB
    obtain ⟨f', hf', -⟩ := hmB
    rw [hnone] at hf'
    exact absurd hf' (by simp)

/-- Claim C3: after every finite sequence of add, update, delete and
replace operations from an empty store, every bucket present in the
index set has a non-empty key set. -/
theorem claim_C3_no_empty_buckets {Obj : Type}
    (indexers : List (String × IndexFunc Obj))
    (hnodup : (indexers.map Prod.fst).Nodup)
    (ops : List (Op Obj)) (hdata : ∀ op ∈ ops, op.isDataOp)
    (hwf : ∀ op ∈ ops, op.WF)
    (s : StoreState Obj)
    (hrun : runOps (NewThreadSafeStore indexers) ops = some s) :
    ∀ name idx v set, s.index.indices name = some idx → idx v = some set → set ≠ [] := by
  have hinv : Inv s :=
    Inv_runOps ops _ s (Inv_new indexers hnodup) hwf hrun
  intro name idx v set hidx hset
  exact hinv.buckets name idx hidx v set hset

/-- Claim C8: in a reachable state, when the stored (old) object and a
new object both produce exactly one and the same index value for a
registered index, the per-index reconcile step leaves the index set
unchanged. -/
theorem claim_C8_fast_path_no_mutation {Obj : Type}
    (indexers : List (String × IndexFunc Obj))
    (hnodup : (indexers.map Prod.fst).Nodup)
    (ops : List (Op Obj)) (hwf : ∀ op ∈ ops, op.WF)
    (s : StoreState Obj)
    (hrun : runOps (NewThreadSafeStore indexers) ops = some s)
    (key : String) (o : Obj) (hitem : mapLookup s.items key = some (some o))
    (name : String) (f : IndexFunc Obj)
    (hf : mapLookup s.index.indexers name = some f)
    (v : String) (newObj : Obj)
    (holdv : f o = Except.ok [v]) (hnewv : f newObj = Except.ok [v]) :
    updateSingleIndex s.index.indices name [v] [v] key = s.index.indices := by
  have hinv : Inv s :=
    Inv_runOps ops _ s (Inv_new indexers hnodup) hwf hrun
  have hne : s.items ≠ [] := by
    intro hc
    rw [hc] at hitem
    exact absurd hitem (by simp [mapLookup])
  have hmem : (name, f) ∈ s.index.indexers := mapLookup_eq_some_imp_mem _ _ _ hf
  have hsome : (s.index.indices name).isSome := hinv.covered hne (name, f) hmem
  obtain ⟨idx, hidx⟩ := Option.isSome_iff_exists.mp hsome
  funext n
  by_cases hn : n = name
  · subst hn
    rw [updateSingleIndex_apply_self]
    have hfp : fastPath [v] [v] = true := by simp [fastPath]
    rw [if_pos hfp, hidx]
    rfl
  · exact updateSingleIndex_apply_ne _ _ _ _ _ _ hn

/-- Claim C10: in a reachable state, upserting a nil object under a
key never panics, leaves the key present in the primary table with a
nil object (Get reports existence, ListKeys lists it), and removes the
key from every index bucket. -/
theorem claim_C10_nil_upsert {Obj : Type}
    (indexers : List (String × IndexFunc Obj))
    (hnodup : (indexers.map Prod.fst).Nodup)
    (ops : List (Op Obj)) (hwf : ∀ op ∈ ops, op.WF)
    (s : StoreState Obj)
    (hrun : runOps (NewThreadSafeStore indexers) ops = some s)
    (key : String) :
    ∃ s', Update s key none = some s' ∧
      mapLookup s'.items key = some none ∧
      Get s' key = (none, true) ∧
      key ∈ ListKeys s' ∧
      ∀ name v, ¬ memB s'.index.indices name v key := by
  have hinv : Inv s :=
    Inv_runOps ops _ s (Inv_new indexers hnodup) hwf hrun
  have hnp : updateIndices s.index.indexers s.index.indices
      ((mapLookup s.items key).join) none key ≠ none := by
    intro hcontra
    rw [updateIndices_isNone_iff] at hcontra
    obtain ⟨name, f, hmem, herr | herr⟩ := hcontra
    · obtain ⟨x, e, hx, hfx⟩ := herr
      have hsx : mapLookup s.items key = some (some x) := by
        cases hl : mapLookup s.items key with
        | none =>
          rw [hl] at hx
          exact absurd hx (by simp [Option.join])
        | some o =>
          rw [hl] at hx
          cases o with
          | none => exact absurd hx (by simp [Option.join])
          | some y =>
            have hyx : some y = some x := hx
            obtain rfl : y = x := by injection hyx
            rfl
      obtain ⟨vals, hvals⟩ := hinv.funcsOk key (some x) hsx (name, f) hmem
      have hvals' : f x = Except.ok vals := hvals
      rw [hfx] at hvals'
      exact absurd hvals' (by simp)
    · obtain ⟨x, e, hx, -⟩ := herr
      exact absurd hx (by simp)
  cases hup : updateIndices s.index.indexers s.index.indices
      ((mapLookup s.items key).join) none key with
  | none => exact absurd hup hnp
  | some ind =>
    have hupd : Update s key none =
        some (⟨mapInsert s.items key none, ⟨s.index.indexers, ind⟩⟩ : StoreState Obj) := by
      unfold Update
      rw [hup]
    refine ⟨⟨mapInsert s.items key none, ⟨s.index.indexers, ind⟩⟩, hupd, ?_, ?_, ?_, ?_⟩
    · exact mapLookup_insert_self _ _ _
    · unfold Get
      dsimp only
      rw [mapLookup_insert_self]
    · unfold ListKeys
      dsimp only
      exact mapLookup_mem_keys _ _ _ (mapLookup_insert_self s.items key none)
    · intro name v hmB
      have hinv' := Inv_Update s _ key none hinv hupd
      rw [hinv'.cons name v key] at hmB
      obtain ⟨f, -, o, ho, vals, hvals, hv⟩ := hmB
      dsimp only at ho
      rw [mapLookup_insert_self] at ho
      obtain rfl : (none : Option Obj) = o := by injection ho
      have hvals' : (Except.ok ([] : List String) : Except String (List String)) =
          Except.ok vals := hvals
      obtain rfl : ([] : List String) = vals := by injection hvals'
      simp at hv

/-- Running the list of Add ops of the entries of a disjoint map over
a store is exactly the Replace reindexing loop: each Add sees no prior
value, so the indices thread identically and the items accumulate in
order. -/
theorem runOps_adds_eq_reindexAll {Obj : Type} (l : List (String × IndexFunc Obj)) :
    ∀ (ents items0 : List (String × Option Obj)) (ind0 : Indices),
    (ents.map Prod.fst).Nodup →
    (∀ k ∈ ents.map Prod.fst, mapLookup items0 k = none) →
    runOps (⟨items0, ⟨l, ind0⟩⟩ : StoreState Obj) (ents.map (fun p => Op.add p.1 p.2)) =
      (reindexAll l ents ind0).map
        (fun ind => (⟨items0 ++ ents, ⟨l, ind⟩⟩ : StoreState Obj)) := by
  intro ents
  induction ents with
  | nil =>
    intro items0 ind0 _ _
    simp [runOps, reindexAll]
  | cons hd rest ih =>
    intro items0 ind0 hnodup hdisj
    obtain ⟨k0, o0⟩ := hd
    simp only [List.map_cons, List.nodup_cons] at hnodup
    have hdisj0 : mapLookup items0 k0 = none := hdisj k0 (by simp)
    have hjoin : ((mapLookup items0 k0).join : Option Obj) = none := by
      rw [hdisj0]
      rfl
    have hupd : Update (⟨items0, ⟨l, ind0⟩⟩ : StoreState Obj) k0 o0 =
        match updateIndices l ind0 none o0 k0 with
        | none => none
        | some ind => some (⟨items0 ++ [(k0, o0)], ⟨l, ind⟩⟩ : StoreState Obj) := by
      unfold Update
      dsimp only
      rw [hjoin, mapInsert_of_lookup_none _ _ _ hdisj0]
    have hstepLHS : runOps (⟨items0, ⟨l, ind0⟩⟩ : StoreState Obj)
        (((k0, o0) :: rest).map (fun p => Op.add p.1 p.2)) =
        match updateIndices l ind0 none o0 k0 with
        | none => none
        | some ind => runOps (⟨items0 ++ [(k0, o0)], ⟨l, ind⟩⟩ : StoreState Obj)
            (rest.map (fun p => Op.add p.1 p.2)) := by
      simp only [List.map_cons, runOps, applyOp, Add]
      rw [hupd]
      cases updateIndices l ind0 none o0 k0 with
      | none => rfl
      | some ind => rfl
    rw [hstepLHS]
    have hdisj1 : ∀ k ∈ rest.map Prod.fst, mapLookup (items0 ++ [(k0, o0)]) k = none := by
      intro k hkmem
      have hkne : k ≠ k0 := by
        intro hc
        apply hnodup.1
        rw [← hc]
        exact hkmem
      rw [mapLookup_append_singleton_ne _ _ _ _ hkne]
      exact hdisj k (by simp [hkmem])
    cases hstep : updateIndices l ind0 none o0 k0 with
    | none =>
      simp [reindexAll, hstep]
    | some ind1 =>
      dsimp only
      rw [ih (items0 ++ [(k0, o0)]) ind1 hnodup.2 hdisj1]
      have happ2 : (items0 ++ [(k0, o0)]) ++ rest = items0 ++ ((k0, o0) :: rest) := by
        simp
      rw [happ2]
      simp [reindexAll, hstep]

/-- Claim C2: after Replace with a map M, the primary table is exactly
M (ListObjects and ListKeys enumerate exactly M's objects and keys),
and the resulting state — indices included — is exactly the state
obtained by adding every entry of M to a store with the same registry,
an empty table and empty indices; nothing of the pre-replace contents
survives. -/
theorem claim_C2_replace_rebuild {Obj : Type} (s s' : StoreState Obj)
    (M : List (String × Option Obj)) (rv : String)
    (hnodup : (M.map Prod.fst).Nodup) (hrep : Replace s M rv = some s') :
    s'.items = M
    ∧ ListObjects s' = M.map Prod.snd
    ∧ ListKeys s' = M.map Prod.fst
    ∧ runOps (⟨[], ⟨s.index.indexers, emptyIndices⟩⟩ : StoreState Obj)
        (M.map (fun p => Op.add p.1 p.2)) = some s' := by
  unfold Replace at hrep
  cases hrun : reindexAll s.index.indexers M emptyIndices with
  | none =>
    rw [hrun] at hrep
    simp at hrep
  | some ind =>
    rw [hrun] at hrep
    obtain rfl : (⟨M, ⟨s.index.indexers, ind⟩⟩ : StoreState Obj) = s' := by
      injection hrep
    refine ⟨rfl, rfl, rfl, ?_⟩
    rw [runOps_adds_eq_reindexAll s.index.indexers M [] emptyIndices hnodup
      (fun k _ => rfl)]
    rw [hrun]
    simp

/-! ### Witnesses for the claims with hypotheses -/

theorem claim_C5_witness :
    ∃ names,
      addIndexers (⟨wIndexers, emptyIndices⟩ : StoreIndex String)
          [("byFirstChar", byFirstChar)] =
        (⟨wIndexers, emptyIndices⟩, some (StoreErr.indexerConflict names)) ∧
      ∀ n, n ∈ names ↔
        (n ∈ ([("byFirstChar", byFirstChar)] :
            List (String × IndexFunc String)).map Prod.fst ∧
         n ∈ wIndexers.map Prod.fst) :=
  (claim_C5_addIndexers_conflict ⟨wIndexers, emptyIndices⟩
      [("byFirstChar", byFirstChar)]).1
    ⟨"byFirstChar", by simp [wIndexers], by simp [wIndexers]⟩

theorem claim_C6_witness :
    AddIndexers wStore [("byLen", fun s => Except.ok [toString s.length])] =
      (wStore, some StoreErr.indexerRegistrationOnNonEmptyStore) :=
  (claim_C6_addIndexers_nonempty_store wStore _).1 (by simp [wStore])

theorem claim_C7_witness : Delete wStore "missing" = some wStore :=
  claim_C7_delete_missing_noop wStore "missing" rfl

theorem claim_C9_witness :
    (∃ ks, IndexKeys wStore "byFirstChar" "a" = Except.ok ks ∧
      ∀ k, k ∈ ks ↔ memB wStore.index.indices "byFirstChar" "a" k)
    ∧ IndexKeys wStore "unregistered" "a" =
        Except.error (StoreErr.indexNotFound "unregistered") :=
  ⟨(claim_C9_indexKeys wStore "byFirstChar" "a").1 byFirstChar rfl,
   ((claim_C9_indexKeys wStore "unregistered" "a").2 rfl).2⟩

theorem claim_C1_witness :
    ∃ s, runOps (NewThreadSafeStore wIndexers) [Op.add "k1" (some "apple")] = some s ∧
      memB s.index.indices "byFirstChar" "a" "k1" := by
  refine ⟨_, rfl, ?_⟩
  have h := (claim_C1_index_consistency wIndexers (by simp [wIndexers])
      [Op.add "k1" (some "apple")] (by simp [Op.isBasic]) _ rfl).1
      "byFirstChar" byFirstChar rfl "k1" (some "apple") rfl "a"
  exact h.mpr ⟨["a"], rfl, by simp⟩

theorem claim_C2_witness :
    ∃ s', Replace wStore [("k1", some "apple"), ("k2", some "avocado")] "v1" = some s' ∧
      s'.items = [("k1", some "apple"), ("k2", some "avocado")] ∧
      ListObjects s' = [some "apple", some "avocado"] ∧
      ListKeys s' = ["k1", "k2"] ∧
      runOps (⟨[], ⟨wStore.index.indexers, emptyIndices⟩⟩ : StoreState String)
        ([("k1", some "apple"), ("k2", some "avocado")].map
          (fun p => Op.add p.1 p.2)) = some s' := by
  have h := claim_C2_replace_rebuild wStore _
    [("k1", some "apple"), ("k2", some "avocado")] "v1" (by simp) rfl
  exact ⟨_, rfl, h.1, h.2.1, h.2.2.1, h.2.2.2⟩

theorem claim_C3_witness :
    ∃ s, runOps (NewThreadSafeStore wIndexers)
      [Op.add "k1" (some "apple"), Op.update "k1" (some "banana"),
       Op.replace [("k2", some "pear")] "v2", Op.delete "k2"] = some s ∧
      ∀ name idx v set, s.index.indices name = some idx → idx v = some set →
        set ≠ [] := by
  refine ⟨_, rfl, ?_⟩
  exact claim_C3_no_empty_buckets wIndexers (by simp [wIndexers])
    [Op.add "k1" (some "apple"), Op.update "k1" (some "banana"),
     Op.replace [("k2", some "pear")] "v2", Op.delete "k2"]
    (by simp [Op.isDataOp]) (by simp [Op.WF]) _ rfl

theorem claim_C8_witness :
    ∃ s, runOps (NewThreadSafeStore wIndexers) [Op.add "k1" (some "apple")] = some s ∧
      updateSingleIndex s.index.indices "byFirstChar" ["a"] ["a"] "k1" =
        s.index.indices := by
  refine ⟨_, rfl, ?_⟩
  exact claim_C8_fast_path_no_mutation wIndexers (by simp [wIndexers])
    [Op.add "k1" (some "apple")] (by simp [Op.WF]) _ rfl
    "k1" "apple" rfl "byFirstChar" byFirstChar rfl "a" "apricot" rfl rfl

theorem claim_C10_witness :
    ∃ s, runOps (NewThreadSafeStore wIndexers) [Op.add "k1" (some "apple")] = some s ∧
      ∃ s', Update s "k1" none = some s' ∧
        mapLookup s'.items "k1" = some none ∧
        Get s' "k1" = (none, true) ∧
        "k1" ∈ ListKeys s' ∧
        ∀ name v, ¬ memB s'.index.indices name v "k1" := by
  refine ⟨_, rfl, ?_⟩
  exact claim_C10_nil_upsert wIndexers (by simp [wIndexers])
    [Op.add "k1" (some "apple")] (by simp [Op.WF]) _ rfl "k1"

end Cache
